import Mathlib

/-!
# Verification of the `norm` module of rulinalg (`src/norm/mod.rs`)

Shallow embedding: a vector is a `List ℝ`, a matrix is its list of rows
`List (List ℝ)`, and the floating-point scalar type `T: Float` is idealised
as the real numbers (`powf` becomes `Real.rpow`, `sqrt` becomes `Real.sqrt`,
`abs` becomes `|·|`).  The `Lp` parameter — a float that may be infinite —
is modelled as an `EReal`; after the `p < 1` guard, `is_infinite()` is
equivalent to `p = ⊤`.  A `panic!` is modelled by returning `none`.
-/

noncomputable section

namespace Rulinalg

/-- Modelled from the spec: the external `utils::dot` collaborator, "a
dot-product utility over two equal-length element sequences". -/
def dot (a b : List ℝ) : ℝ := (List.zipWith (fun x y => x * y) a b).sum

/-- Modelled from the spec: the container contract's elementwise subtraction
of two same-length vectors (`v1 - v2`). -/
def vecSub (a b : List ℝ) : List ℝ := List.zipWith (fun x y => x - y) a b

/-- Modelled from the spec: the container contract's elementwise subtraction
of two same-shape matrices (`m1 - m2`), row by row. -/
def matSub (a b : List (List ℝ)) : List (List ℝ) := List.zipWith vecSub a b

/-- `BaseMatrix::iter()`: flat row-major iteration over all elements. -/
def matIter (m : List (List ℝ)) : List ℝ := m.flatten

/-- The blanket induced vector metric (`impl<U, T> VectorMetric<T> for U`,
lines 64-69): `metric(v1, v2) = norm(v1 - v2)` for every norm
implementation `N`, uniformly. -/
def vectorMetric {α : Type} (N : List ℝ → α) (v1 v2 : List ℝ) : α :=
  N (vecSub v1 v2)

/-- The blanket induced matrix metric (lines 78-87):
`metric(m1, m2) = norm(m1 - m2)` for every norm implementation `N`. -/
def matrixMetric {α : Type} (N : List (List ℝ) → α) (m1 m2 : List (List ℝ)) : α :=
  N (matSub m1 m2)

/-- `impl<T: Float> VectorNorm<T> for Euclidean` (lines 98-102):
square root of the dot product of the vector with itself. -/
def euclideanVectorNorm (v : List ℝ) : ℝ := Real.sqrt (dot v v)

/-- `impl<T: Float, M> MatrixNorm<T, M> for Euclidean` (lines 104-114):
accumulate `dot(row, row)` over the rows, then take the square root. -/
def euclideanMatrixNorm (m : List (List ℝ)) : ℝ :=
  Real.sqrt (m.foldl (fun s row => s + dot row row) 0)

/-- The `p = ∞` supremum loop of `Lp::norm` (lines 137-143 and 161-167):
the comparison is `d.abs() > abs_sup`, but the value stored on a win is the
raw `*d`, not its absolute value. -/
def absSup (l : List ℝ) : ℝ :=
  l.foldl (fun acc d => if |d| > acc then d else acc) 0

/-- `impl<T: Float> VectorNorm<T> for Lp<T>` (lines 131-153);
`none` models the `panic!` at `p < 1`. -/
def lpVectorNorm (p : EReal) (v : List ℝ) : Option ℝ :=
  if p < 1 then none
  else if p = ⊤ then some (absSup v)
  else some ((v.foldl (fun s x => s + |x| ^ p.toReal) 0) ^ p.toReal⁻¹)

/-- `impl<T: Float, M> MatrixNorm<T, M> for Lp<T>` (lines 155-177):
same structure as the vector norm over the flat element iteration. -/
def lpMatrixNorm (p : EReal) (m : List (List ℝ)) : Option ℝ :=
  if p < 1 then none
  else if p = ⊤ then some (absSup (matIter m))
  else some (((matIter m).foldl (fun s x => s + |x| ^ p.toReal) 0) ^ p.toReal⁻¹)

/-! ## Helper lemmas -/

/-- A left fold that adds `f x` at each step is the sum of the mapped list. -/
theorem foldl_add_eq {β : Type} (f : β → ℝ) :
    ∀ (l : List β) (s : ℝ), l.foldl (fun a x => a + f x) s = s + (l.map f).sum := by
  intro l
  induction l with
  | nil => intro s; simp
  | cons x t ih =>
      intro s
      simp only [List.foldl_cons, List.map_cons, List.sum_cons, ih (s + f x)]
      ring

/-- The dot product of a list with itself is the sum of the squares. -/
theorem dot_self_eq (v : List ℝ) : dot v v = (v.map fun x => x ^ 2).sum := by
  induction v with
  | nil => simp [dot]
  | cons x t ih =>
      simp only [dot, List.zipWith_cons_cons, List.sum_cons, List.map_cons] at *
      rw [ih, sq]

/-- The Euclidean vector norm of any all-zero vector is `0`. -/
theorem euclidean_replicate_zero (n : ℕ) :
    euclideanVectorNorm (List.replicate n 0) = 0 := by
  rw [euclideanVectorNorm, dot_self_eq]
  simp

/-- Subtracting a vector from itself gives the all-zero vector. -/
theorem vecSub_self (v : List ℝ) : vecSub v v = List.replicate v.length 0 := by
  induction v with
  | nil => rfl
  | cons x t ih => simp_all [vecSub, List.replicate]

/-! ## Claims -/

/-- C5: the Euclidean vector norm is the square root of the dot product of
the vector with itself, i.e. the square root of the sum of the squared
elements; on `[3, 4]` it returns `5` and on the empty vector it returns `0`. -/
theorem euclidean_vector_norm_spec :
    (∀ v : List ℝ, euclideanVectorNorm v = Real.sqrt (dot v v)) ∧
    (∀ v : List ℝ, euclideanVectorNorm v = Real.sqrt ((v.map fun x => x ^ 2).sum)) ∧
    euclideanVectorNorm [3, 4] = 5 ∧
    euclideanVectorNorm [] = 0 := by
  refine ⟨fun v => rfl, fun v => by rw [euclideanVectorNorm, dot_self_eq], ?_, ?_⟩
  · rw [euclideanVectorNorm]
    have h : dot [(3 : ℝ), 4] [3, 4] = 25 := by
      norm_num [dot, List.zipWith]
    rw [h, show (25 : ℝ) = 5 ^ 2 by norm_num, Real.sqrt_sq (by norm_num)]
  · have h0 := euclidean_replicate_zero 0
    simpa using h0

/-- C1: the claim fails on the code.  At `p = ∞` the supremum loop stores the
raw element after comparing absolute values, so on the vector `[-2]` (and on
the matrix `[[-2]]`) the returned value is `-2`, while the maximum of the
absolute values is `|-2| = 2 ≠ -2`. -/
theorem lp_inf_norm_not_abs_max :
    lpVectorNorm ⊤ [(-2 : ℝ)] = some (-2) ∧
    lpMatrixNorm ⊤ [[(-2 : ℝ)]] = some (-2) ∧
    |(-2 : ℝ)| = 2 ∧ (-2 : ℝ) ≠ 2 := by
  have hsup : absSup [(-2 : ℝ)] = -2 := by
    rw [absSup]
    simp only [List.foldl_cons, List.foldl_nil]
    rw [if_pos (by norm_num : |(-2 : ℝ)| > 0)]
  refine ⟨?_, ?_, by norm_num, by norm_num⟩
  · rw [lpVectorNorm, if_neg not_top_lt, if_pos rfl, hsup]
  · rw [lpMatrixNorm, if_neg not_top_lt, if_pos rfl]
    have hm : matIter [[(-2 : ℝ)]] = [(-2 : ℝ)] := by simp [matIter]
    rw [hm, hsup]

/-- C2: for every norm implementation `N` (vector or matrix, any result
type, hence no norm-specific special-casing), the blanket induced metric is
the norm of the elementwise difference. -/
theorem metric_is_norm_of_difference :
    (∀ (α : Type) (N : List ℝ → α) (a b : List ℝ),
      vectorMetric N a b = N (vecSub a b)) ∧
    (∀ (α : Type) (N : List (List ℝ) → α) (m1 m2 : List (List ℝ)),
      matrixMetric N m1 m2 = N (matSub m1 m2)) :=
  ⟨fun _ _ _ _ => rfl, fun _ _ _ _ => rfl⟩

/-- C3: for every `p < 1` the Lp norm panics (`none`) on every vector and
every matrix operand, empty ones included; no result is ever produced. -/
theorem lp_p_lt_one_panics (p : EReal) (hp : p < 1) :
    (∀ v : List ℝ, lpVectorNorm p v = none) ∧
    (∀ m : List (List ℝ), lpMatrixNorm p m = none) :=
  ⟨fun _ => if_pos hp, fun _ => if_pos hp⟩

/-- Witness for C3 at `p = 0` on the empty vector and an empty matrix. -/
theorem lp_p_lt_one_panics_witness :
    lpVectorNorm 0 [] = none ∧ lpMatrixNorm 0 [[]] = none := by
  have hp : (0 : EReal) < 1 := by
    rw [show (0 : EReal) = ((0 : ℝ) : EReal) from rfl,
        show (1 : EReal) = ((1 : ℝ) : EReal) from rfl]
    exact EReal.coe_lt_coe_iff.mpr one_pos
  exact ⟨(lp_p_lt_one_panics 0 hp).1 [], (lp_p_lt_one_panics 0 hp).2 [[]]⟩

/-- C8: for any norm implementation `N` whose value on every all-zero
vector is `0`, the induced metric of a vector with itself is `0`. -/
theorem metric_self_eq_zero (N : List ℝ → ℝ)
    (hN : ∀ n : ℕ, N (List.replicate n 0) = 0) (v : List ℝ) :
    vectorMetric N v v = 0 := by
  rw [vectorMetric, vecSub_self]
  exact hN v.length

/-- Witness for C8: the Euclidean norm sends zero vectors to `0`, so the
induced metric of `[3, 4]` with itself is `0`. -/
theorem metric_self_eq_zero_witness :
    vectorMetric euclideanVectorNorm [(3 : ℝ), 4] [(3 : ℝ), 4] = 0 :=
  metric_self_eq_zero euclideanVectorNorm euclidean_replicate_zero [3, 4]

/-- C7: the claim fails on the code at `p = ∞`.  The matrices `[[-3, 2]]`
and `[[2, -3]]` hold the same elements (a permutation), yet the code's
`Lp(∞)` matrix norm returns `2` for the first and `-3` for the second,
because the supremum loop stores the raw element after comparing absolute
values. -/
theorem lp_inf_matrix_norm_not_permutation_invariant :
    lpMatrixNorm ⊤ [[(-3 : ℝ), 2]] = some 2 ∧
    lpMatrixNorm ⊤ [[(2 : ℝ), -3]] = some (-3) ∧
    List.Perm [(-3 : ℝ), 2] [(2 : ℝ), -3] ∧
    (2 : ℝ) ≠ -3 := by
  have h1 : absSup [(-3 : ℝ), 2] = 2 := by
    rw [absSup]
    simp only [List.foldl_cons, List.foldl_nil]
    rw [if_pos (by norm_num : |(-3 : ℝ)| > 0),
        if_pos (by norm_num : |(2 : ℝ)| > (-3 : ℝ))]
  have h2 : absSup [(2 : ℝ), -3] = -3 := by
    rw [absSup]
    simp only [List.foldl_cons, List.foldl_nil]
    rw [if_pos (by norm_num : |(2 : ℝ)| > 0),
        if_pos (by norm_num : |(-3 : ℝ)| > (2 : ℝ))]
  refine ⟨?_, ?_, List.Perm.swap 2 (-3) [], by norm_num⟩
  · rw [lpMatrixNorm, if_neg not_top_lt, if_pos rfl,
        show matIter [[(-3 : ℝ), 2]] = [(-3 : ℝ), 2] by simp [matIter], h1]
  · rw [lpMatrixNorm, if_neg not_top_lt, if_pos rfl,
        show matIter [[(2 : ℝ), -3]] = [(2 : ℝ), -3] by simp [matIter], h2]

/-! ## Evaluation of the Lp norms at a finite parameter -/

/-- For a finite real `p ≥ 1`, the guards fall through and the Lp vector
norm evaluates to `(Σ |x|^p)^(1/p)`. -/
theorem lpVectorNorm_coe_eval (p : ℝ) (hp : 1 ≤ p) (v : List ℝ) :
    lpVectorNorm (p : EReal) v = some (((v.map fun x => |x| ^ p).sum) ^ p⁻¹) := by
  have h1 : ¬((p : EReal) < 1) := by
    rw [show (1 : EReal) = ((1 : ℝ) : EReal) from rfl]
    exact fun h => absurd (EReal.coe_lt_coe_iff.mp h) (not_lt.mpr hp)
  rw [lpVectorNorm, if_neg h1, if_neg (EReal.coe_ne_top p)]
  simp only [EReal.toReal_coe]
  rw [foldl_add_eq (fun x => |x| ^ p) v 0, zero_add]

/-- For a finite real `p ≥ 1`, the Lp matrix norm evaluates to
`(Σ |x|^p)^(1/p)` over the flattened elements. -/
theorem lpMatrixNorm_coe_eval (p : ℝ) (hp : 1 ≤ p) (m : List (List ℝ)) :
    lpMatrixNorm (p : EReal) m
      = some (((m.flatten.map fun x => |x| ^ p).sum) ^ p⁻¹) := by
  have h1 : ¬((p : EReal) < 1) := by
    rw [show (1 : EReal) = ((1 : ℝ) : EReal) from rfl]
    exact fun h => absurd (EReal.coe_lt_coe_iff.mp h) (not_lt.mpr hp)
  rw [lpMatrixNorm, if_neg h1, if_neg (EReal.coe_ne_top p)]
  simp only [EReal.toReal_coe]
  rw [matIter, foldl_add_eq (fun x => |x| ^ p) m.flatten 0, zero_add]

/-- C4: for every finite `p ≥ 1`, the Lp norm of a vector — and of a matrix,
treated as its flat element stream — is `(Σ |element|^p)^(1/p)`; at `p = 1`
the same general formula yields the sum of absolute values. -/
theorem lp_finite_norm_formula (p : ℝ) (hp : 1 ≤ p) :
    (∀ v : List ℝ, lpVectorNorm (p : EReal) v
        = some (((v.map fun x => |x| ^ p).sum) ^ p⁻¹)) ∧
    (∀ m : List (List ℝ), lpMatrixNorm (p : EReal) m
        = some (((m.flatten.map fun x => |x| ^ p).sum) ^ p⁻¹)) ∧
    (∀ v : List ℝ, lpVectorNorm ((1 : ℝ) : EReal) v
        = some ((v.map fun x => |x|).sum)) := by
  refine ⟨lpVectorNorm_coe_eval p hp, lpMatrixNorm_coe_eval p hp, fun v => ?_⟩
  rw [lpVectorNorm_coe_eval 1 le_rfl v]
  simp [Real.rpow_one]

/-- Witness for C4 at `p = 2` on the vector `[3]` and the matrix `[[3]]`. -/
theorem lp_finite_norm_formula_witness :
    lpVectorNorm ((2 : ℝ) : EReal) [(3 : ℝ)]
      = some ((([(3 : ℝ)].map fun x => |x| ^ (2 : ℝ)).sum) ^ (2 : ℝ)⁻¹) ∧
    lpMatrixNorm ((2 : ℝ) : EReal) [[(3 : ℝ)]]
      = some ((([[(3 : ℝ)]].flatten.map fun x => |x| ^ (2 : ℝ)).sum) ^ (2 : ℝ)⁻¹) :=
  ⟨(lp_finite_norm_formula 2 one_le_two).1 [3],
   (lp_finite_norm_formula 2 one_le_two).2.1 [[3]]⟩

/-- C10: the Euclidean norms are nonnegative on every input, and for every
finite `p ≥ 1` the Lp norms return a nonnegative value on every input. -/
theorem norms_nonneg (p : ℝ) (hp : 1 ≤ p) :
    (∀ v : List ℝ, 0 ≤ euclideanVectorNorm v) ∧
    (∀ m : List (List ℝ), 0 ≤ euclideanMatrixNorm m) ∧
    (∀ v : List ℝ, ∃ r : ℝ, lpVectorNorm (p : EReal) v = some r ∧ 0 ≤ r) ∧
    (∀ m : List (List ℝ), ∃ r : ℝ, lpMatrixNorm (p : EReal) m = some r ∧ 0 ≤ r) := by
  have hsum : ∀ l : List ℝ, 0 ≤ ((l.map fun x => |x| ^ p).sum) ^ p⁻¹ := by
    intro l
    refine Real.rpow_nonneg (List.sum_nonneg ?_) p⁻¹
    intro x hx
    obtain ⟨y, _, rfl⟩ := List.mem_map.mp hx
    exact Real.rpow_nonneg (abs_nonneg y) p
  exact ⟨fun v => Real.sqrt_nonneg _, fun m => Real.sqrt_nonneg _,
    fun v => ⟨_, lpVectorNorm_coe_eval p hp v, hsum v⟩,
    fun m => ⟨_, lpMatrixNorm_coe_eval p hp m, hsum m.flatten⟩⟩

/-- Witness for C10 at `p = 1` on inputs with a negative element. -/
theorem norms_nonneg_witness :
    0 ≤ euclideanVectorNorm [(-1 : ℝ)] ∧
    0 ≤ euclideanMatrixNorm [[(-1 : ℝ)]] ∧
    (∃ r : ℝ, lpVectorNorm ((1 : ℝ) : EReal) [(-1 : ℝ)] = some r ∧ 0 ≤ r) ∧
    (∃ r : ℝ, lpMatrixNorm ((1 : ℝ) : EReal) [[(-1 : ℝ)]] = some r ∧ 0 ≤ r) :=
  ⟨(norms_nonneg 1 le_rfl).1 [(-1)], (norms_nonneg 1 le_rfl).2.1 [[(-1)]],
   (norms_nonneg 1 le_rfl).2.2.1 [(-1)], (norms_nonneg 1 le_rfl).2.2.2 [[(-1)]]⟩

/-- C6: the row-wise Euclidean matrix norm equals the square root of the
sum of the squares of all elements taken in any order (the Frobenius
norm): for every list `l` holding the matrix's elements in any order, the
norm is `sqrt (Σ over l of element²)`. -/
theorem euclidean_matrix_norm_frobenius (m : List (List ℝ)) (l : List ℝ)
    (hl : List.Perm m.flatten l) :
    euclideanMatrixNorm m = Real.sqrt ((l.map fun x => x ^ 2).sum) := by
  rw [euclideanMatrixNorm, foldl_add_eq (fun row => dot row row) m 0, zero_add]
  congr 1
  have h1 : (m.map fun row => dot row row)
      = (m.map fun row => row.map fun x => x ^ 2).map List.sum := by
    rw [List.map_map]
    exact List.map_congr_left fun r _ => dot_self_eq r
  rw [h1, ← List.sum_flatten, ← List.map_flatten]
  exact (hl.map fun x => x ^ 2).sum_eq

/-- Witness for C6: the matrix `[[3, 4], [1, 3]]` against its elements
listed flat. -/
theorem euclidean_matrix_norm_frobenius_witness :
    euclideanMatrixNorm [[(3 : ℝ), 4], [1, 3]]
      = Real.sqrt (([(3 : ℝ), 4, 1, 3].map fun x => x ^ 2).sum) :=
  euclidean_matrix_norm_frobenius [[(3 : ℝ), 4], [1, 3]] [3, 4, 1, 3]
    (List.Perm.refl _)

/-! ## Sign-invariance lemmas for the induced metrics -/

/-- Swapping the operands of the elementwise subtraction negates every
element of the result. -/
theorem vecSub_antisymm : ∀ a b : List ℝ, vecSub b a = (vecSub a b).map fun x => -x := by
  intro a
  induction a with
  | nil => intro b; cases b <;> rfl
  | cons x t ih =>
      intro b
      cases b with
      | nil => rfl
      | cons y s =>
          simp only [vecSub, List.zipWith_cons_cons, List.map_cons] at *
          exact congrArg₂ _ (neg_sub x y).symm (ih s)

/-- Swapping the operands of the matrix subtraction negates every element. -/
theorem matSub_antisymm : ∀ a b : List (List ℝ),
    matSub b a = (matSub a b).map fun r => r.map fun x => -x := by
  intro a
  induction a with
  | nil => intro b; cases b <;> rfl
  | cons x t ih =>
      intro b
      cases b with
      | nil => rfl
      | cons y s =>
          simp only [matSub, List.zipWith_cons_cons, List.map_cons] at *
          exact congrArg₂ _ (vecSub_antisymm x y) (ih s)

/-- Negating every element does not change the squares. -/
theorem map_neg_sq (l : List ℝ) :
    ((l.map fun x => -x).map fun x => x ^ 2) = l.map fun x => x ^ 2 := by
  rw [List.map_map]
  exact List.map_congr_left fun x _ => neg_sq x

/-- Negating every element does not change the powers of absolute values. -/
theorem map_neg_abs_pow (t : ℝ) (l : List ℝ) :
    ((l.map fun x => -x).map fun x => |x| ^ t) = l.map fun x => |x| ^ t := by
  rw [List.map_map]
  exact List.map_congr_left fun x _ => by rw [Function.comp_apply, abs_neg]

/-- The Euclidean vector norm is invariant under elementwise negation. -/
theorem euclideanVectorNorm_map_neg (l : List ℝ) :
    euclideanVectorNorm (l.map fun x => -x) = euclideanVectorNorm l := by
  rw [euclideanVectorNorm, euclideanVectorNorm, dot_self_eq, dot_self_eq, map_neg_sq]

/-- For finite `p ≥ 1`, the Lp vector norm is invariant under elementwise
negation. -/
theorem lpVectorNorm_map_neg (p : ℝ) (hp : 1 ≤ p) (l : List ℝ) :
    lpVectorNorm (p : EReal) (l.map fun x => -x) = lpVectorNorm (p : EReal) l := by
  rw [lpVectorNorm_coe_eval p hp, lpVectorNorm_coe_eval p hp, map_neg_abs_pow]

/-- The Euclidean matrix norm is invariant under elementwise negation. -/
theorem euclideanMatrixNorm_map_neg (m : List (List ℝ)) :
    euclideanMatrixNorm (m.map fun r => r.map fun x => -x) = euclideanMatrixNorm m := by
  rw [euclideanMatrixNorm, euclideanMatrixNorm,
      foldl_add_eq (fun row => dot row row) _ 0,
      foldl_add_eq (fun row => dot row row) m 0, List.map_map]
  have h : ∀ r : List ℝ, dot (r.map fun x => -x) (r.map fun x => -x) = dot r r := by
    intro r
    rw [dot_self_eq, dot_self_eq, map_neg_sq]
  congr 2
  exact congrArg List.sum (List.map_congr_left fun r _ => h r)

/-- Flat iteration commutes with elementwise negation of a matrix. -/
theorem matIter_map_neg (m : List (List ℝ)) :
    matIter (m.map fun r => r.map fun x => -x) = (matIter m).map fun x => -x := by
  rw [matIter, matIter, List.map_flatten]

/-- For finite `p ≥ 1`, the Lp matrix norm is invariant under elementwise
negation. -/
theorem lpMatrixNorm_map_neg (p : ℝ) (hp : 1 ≤ p) (m : List (List ℝ)) :
    lpMatrixNorm (p : EReal) (m.map fun r => r.map fun x => -x)
      = lpMatrixNorm (p : EReal) m := by
  rw [lpMatrixNorm_coe_eval p hp, lpMatrixNorm_coe_eval p hp]
  have h : (m.map fun r => r.map fun x => -x).flatten = m.flatten.map fun x => -x := by
    rw [List.map_flatten]
  rw [h, map_neg_abs_pow]

/-- C9: for the Euclidean norm and for every Lp norm with finite `p ≥ 1`,
the induced metric is symmetric on same-length vectors and on same-shape
matrices: swapping the operands negates every element of the difference,
and the square / absolute-value formulas are sign-invariant. -/
theorem metric_symmetric (p : ℝ) (hp : 1 ≤ p) :
    (∀ a b : List ℝ, a.length = b.length →
      vectorMetric euclideanVectorNorm a b = vectorMetric euclideanVectorNorm b a ∧
      vectorMetric (lpVectorNorm (p : EReal)) a b
        = vectorMetric (lpVectorNorm (p : EReal)) b a) ∧
    (∀ m1 m2 : List (List ℝ), m1.map List.length = m2.map List.length →
      matrixMetric euclideanMatrixNorm m1 m2 = matrixMetric euclideanMatrixNorm m2 m1 ∧
      matrixMetric (lpMatrixNorm (p : EReal)) m1 m2
        = matrixMetric (lpMatrixNorm (p : EReal)) m2 m1) := by
  refine ⟨fun a b _ => ⟨?_, ?_⟩, fun m1 m2 _ => ⟨?_, ?_⟩⟩
  · rw [vectorMetric, vectorMetric, vecSub_antisymm a b, euclideanVectorNorm_map_neg]
  · rw [vectorMetric, vectorMetric, vecSub_antisymm a b, lpVectorNorm_map_neg p hp]
  · rw [matrixMetric, matrixMetric, matSub_antisymm m1 m2, euclideanMatrixNorm_map_neg]
  · rw [matrixMetric, matrixMetric, matSub_antisymm m1 m2, lpMatrixNorm_map_neg p hp]

/-- Witness for C9 at `p = 2` on concrete same-length vectors and
same-shape matrices. -/
theorem metric_symmetric_witness :
    (vectorMetric euclideanVectorNorm [(1 : ℝ), 2] [(3 : ℝ), 5]
       = vectorMetric euclideanVectorNorm [(3 : ℝ), 5] [(1 : ℝ), 2] ∧
     vectorMetric (lpVectorNorm ((2 : ℝ) : EReal)) [(1 : ℝ), 2] [(3 : ℝ), 5]
       = vectorMetric (lpVectorNorm ((2 : ℝ) : EReal)) [(3 : ℝ), 5] [(1 : ℝ), 2]) ∧
    (matrixMetric euclideanMatrixNorm [[(1 : ℝ)]] [[(2 : ℝ)]]
       = matrixMetric euclideanMatrixNorm [[(2 : ℝ)]] [[(1 : ℝ)]] ∧
     matrixMetric (lpMatrixNorm ((2 : ℝ) : EReal)) [[(1 : ℝ)]] [[(2 : ℝ)]]
       = matrixMetric (lpMatrixNorm ((2 : ℝ) : EReal)) [[(2 : ℝ)]] [[(1 : ℝ)]]) :=
  ⟨(metric_symmetric 2 one_le_two).1 [1, 2] [3, 5] rfl,
   (metric_symmetric 2 one_le_two).2 [[1]] [[2]] rfl⟩

end Rulinalg
